import Mathlib

/-!
Verification development for the InMAP adaptive-grid air-quality model.

The repository sources available here are `dynamicgrid_test.go` (the dynamic
grid reference test) and `inmaputil/cmd.go` (the command layer wiring
configuration options into the model).  The numerical core that those files
exercise (grid mutation, the CFL timestep controller, the periodic stage
wrapper, the calculations pipeline, the convergence check and the distributed
SR coordinator) is declared and called there but its body is not among the
given sources, so those operations are modelled from the specification, as
noted on each definition.  Rational numbers stand in for the floating-point
state so that conservation and stability facts are exact.
-/

namespace Inmap

/-! ## Emission units validation (cmd.go: `EmissionUnits` option, `steadyCmd`) -/

/-- The acceptable emission-unit strings, as enumerated in the usage text of
the `EmissionUnits` configuration option in `cmd.go`. -/
def acceptableEmissionUnits : List String :=
  ["tons/year", "kg/year", "ug/s", "μg/s"]

/-- Modelled from the spec: `checkEmissionUnits` (called by `steadyCmd` and
`srPredictCmd` in `cmd.go`; its body is not among the given sources) accepts
an emission-units string exactly when it is one of the acceptable values and
otherwise reports a descriptive error. -/
def checkEmissionUnits (u : String) : Except String String :=
  if u ∈ acceptableEmissionUnits then Except.ok u
  else Except.error ("inmap: invalid emission units: " ++ u)

/-- Embedding of the validation sequence of `steadyCmd.RunE` in `cmd.go`:
the grid configuration, output file, output variables and emission units are
each checked in turn, and only if all checks pass is the simulation run
invoked (represented by returning `Except.ok` with the validated units). -/
def steadyCmdRunE (vgc : Except String Unit) (outFile : Except String String)
    (outVars : Except String Unit) (emissionUnits : String) :
    Except String String := do
  let _ ← vgc
  let _o ← outFile
  let _ ← outVars
  let units ← checkEmissionUnits emissionUnits
  pure units

/-! ## Grid mutation mass conservation (spec section 4.4; `MutateGrid` in the
test's run functions) -/

/-- A grid cell's conserved state: per-species mass (species indexed by
natural numbers) and population. -/
structure GridCell where
  mass : ℕ → ℚ
  pop : ℚ

/-- Modelled from the spec: the redistribution step of `MutateGrid` (body not
among the given sources) splits a parent cell into children, giving each
child the fraction of the parent's per-species mass and population that
corresponds to its sub-area fraction. -/
def splitCell (parent : GridCell) (fracs : List ℚ) : List GridCell :=
  fracs.map fun w => { mass := fun s => w * parent.mass s, pop := w * parent.pop }

/-- Total mass of one species over a list of cells. -/
def childMassSum (children : List GridCell) (s : ℕ) : ℚ :=
  (children.map fun c => c.mass s).sum

/-- Decidable conservation check: every listed species' summed child mass
equals the parent's mass. -/
def conservationOK (parent : GridCell) (children : List GridCell)
    (species : List ℕ) : Bool :=
  species.all fun s => childMassSum children s == parent.mass s

/-- Modelled from the spec: `MutateGrid`'s conservation check (body not among
the given sources) — a split whose children fail the conservation check is a
fatal error that halts the run; otherwise the children are accepted. -/
def mutateCellChecked (parent : GridCell) (children : List GridCell)
    (species : List ℕ) : Except String (List GridCell) :=
  if conservationOK parent children species then Except.ok children
  else Except.error "grid mutation: mass conservation violated"

/-! ## CFL timestep controller (spec section 4.3; `SetTimestepCFL` in the
test's init and run functions) -/

/-- A cell's flow state as seen by the timestep controller: a velocity
component and an edge length for each of the three axes. -/
structure FlowCell where
  u : ℚ
  v : ℚ
  w : ℚ
  dx : ℚ
  dy : ℚ
  dz : ℚ

/-- The three (velocity component, cell dimension) pairs of a cell, one per
axis. -/
def axisPairs (c : FlowCell) : List (ℚ × ℚ) :=
  [(c.u, c.dx), (c.v, c.dy), (c.w, c.dz)]

/-- The largest stable step along one axis, `dimension / |velocity|`;
no constraint when the velocity component is zero. -/
def axisBound (p : ℚ × ℚ) : Option ℚ :=
  if p.1 = 0 then none else some (p.2 / |p.1|)

/-- All axis bounds over all cells of the grid. -/
def gridBounds (cells : List FlowCell) : List ℚ :=
  cells.flatMap fun c => (axisPairs c).filterMap axisBound

/-- Modelled from the spec: `SetTimestepCFL` (body not among the given
sources) computes the time step as the minimum stable bound over all cells
and axes, scaled by a safety margin below one; when no axis constrains the
step (all velocities zero) a default step is used. -/
def setTimestepCFL (safety dtDefault : ℚ) (cells : List FlowCell) : ℚ :=
  match gridBounds cells with
  | [] => dtDefault
  | b :: bs => safety * bs.foldl min b

/-! ## Pipeline engine: calculations groups, periodic stages, run loop
(spec sections 4.2 and 4.5; `Calculations`, `RunPeriodically`,
`SteadyStateConvergenceCheck` in the test's run functions) -/

/-- Modelled from the spec: a `Calculations` group (body not among the given
sources) applies its per-cell kernels to a cell state strictly in list order,
each kernel consuming the state left by the previous one. -/
def calculations {σ : Type} (kernels : List (σ → σ)) (cell : σ) : σ :=
  kernels.foldl (fun st k => k st) cell

/-- Applying a calculations group to every cell of the domain, one cell at a
time. -/
def applyCalculations {σ : Type} (kernels : List (σ → σ)) (cells : List σ) :
    List σ :=
  cells.map (calculations kernels)

/-- Domain state seen by a periodically gated stage: the payload the stage
acts on, the accumulated simulated time, the current time step, and the
simulated time at which the stage last ran. -/
structure PDomain (α : Type) where
  data : α
  time : ℚ
  dt : ℚ
  lastRun : ℚ

/-- Modelled from the spec: `RunPeriodically` (body not among the given
sources) executes its wrapped stage only when the simulated time elapsed
since the stage last ran has reached the configured interval, recording the
execution time; otherwise it leaves the domain unchanged. -/
def runPeriodically {α : Type} (interval : ℚ) (stage : α → α)
    (d : PDomain α) : PDomain α :=
  if interval ≤ d.time - d.lastRun then
    { d with data := stage d.data, lastRun := d.time }
  else d

/-- Simulated time advances by the current time step once per iteration. -/
def advanceTime {α : Type} (d : PDomain α) : PDomain α :=
  { d with time := d.time + d.dt }

/-- One run-loop iteration containing a periodically gated stage: the gate is
evaluated, then simulated time advances by the current step. -/
def periodicIteration {α : Type} (interval : ℚ) (stage : α → α)
    (d : PDomain α) : PDomain α :=
  advanceTime (runPeriodically interval stage d)

/-- Modelled from the spec: the stop signal of `SteadyStateConvergenceCheck`
(body not among the given sources; configured by the `NumIterations` option
of `cmd.go`) — with a configured iteration count of at least one the run
stops exactly when that many iterations have completed, ignoring the
convergence metric; otherwise the convergence detector's signal decides. -/
def shouldStop (numIterations : ℤ) (convergedNow : Bool) (iter : ℕ) : Bool :=
  if 1 ≤ numIterations then decide (numIterations.toNat ≤ iter) else convergedNow

/-- The run loop: starting from `iter` completed iterations, keep executing
the run-stage sequence while the stop signal is off, returning the total
number of iterations executed (with enough fuel to cover the run). -/
def runLoop (stop : ℕ → Bool) : ℕ → ℕ → ℕ
  | 0, iter => iter
  | fuel + 1, iter => if stop iter then iter else runLoop stop fuel (iter + 1)

/-- The number of run-stage iterations executed for a configured iteration
count and a convergence-metric history. -/
def iterationsExecuted (numIterations : ℤ) (convergedAt : ℕ → Bool)
    (fuel : ℕ) : ℕ :=
  runLoop (fun i => shouldStop numIterations (convergedAt i) i) fuel 0

/-! ## Distributed SR matrix assembly (spec section 4.6; `srCmd`/`RunSR` in
`cmd.go`) -/

/-- Modelled from the spec: the SR coordinator (body of `RunSR` not among the
given sources) writes each completed row into the output matrix keyed by its
source-cell index, not by completion order. -/
def writeRow {ρ : Type} (m : ℕ → Option ρ) (entry : ℕ × ρ) : ℕ → Option ρ :=
  Function.update m entry.1 (some entry.2)

/-- The matrix assembled from a list of completed (source index, row)
results, in the order they completed. -/
def assembleMatrix {ρ : Type} (results : List (ℕ × ρ)) : ℕ → Option ρ :=
  results.foldl writeRow fun _ => none

/-- Modelled from the spec: a chunk attempt either succeeds or fails; the
coordinator retries a failed chunk up to a bounded number of attempts and
succeeds when any attempt within the bound succeeds. -/
def attemptsSucceed (maxTries : ℕ) (outcome : ℕ → Bool) : Bool :=
  (List.range maxTries).any outcome

/-- Outcome of a (possibly resumed) SR coordinator run: the chunks it
actually computed, the completion-marker log after the run, and the chunks
whose retries were exhausted. -/
structure SRRunResult where
  attempted : List ℕ
  completedLog : List ℕ
  failed : List ℕ

/-- Modelled from the spec: the coordinator's handling of one chunk — a chunk
whose completion marker is already in the log is skipped; otherwise it is
computed with bounded retries, appending a completion marker on success and
recording a failure when retries are exhausted. -/
def processChunk (maxTries : ℕ) (outcome : ℕ → ℕ → Bool) (acc : SRRunResult)
    (c : ℕ) : SRRunResult :=
  if c ∈ acc.completedLog then acc
  else if attemptsSucceed maxTries (outcome c) then
    { acc with attempted := acc.attempted ++ [c],
               completedLog := acc.completedLog ++ [c] }
  else
    { acc with attempted := acc.attempted ++ [c], failed := acc.failed ++ [c] }

/-- Modelled from the spec: a coordinator run over a chunk list, resuming
from an existing log directory of completion markers. -/
def resumeSR (maxTries : ℕ) (outcome : ℕ → ℕ → Bool) (logDir : List ℕ)
    (chunks : List ℕ) : SRRunResult :=
  chunks.foldl (processChunk maxTries outcome) ⟨[], logDir, []⟩

/-! ## SR row range (cmd.go: `begin`/`end` options and `srCmd.RunE`) -/

/-- Resolution of the `end` option of `srCmd`: the ending grid index is
exclusive, and the default value `-1` stands for the index just past the
last row of the grid. -/
def resolveEnd (endIdx : ℤ) (nrows : ℕ) : ℕ :=
  if endIdx = -1 then nrows else endIdx.toNat

/-- The source-cell rows computed by the SR command: the inclusive `begin`
index up to, but excluding, the resolved `end` index. -/
def srRowRange (beginIdx : ℕ) (endIdx : ℤ) (nrows : ℕ) : List ℕ :=
  List.range' beginIdx (resolveEnd endIdx nrows - beginIdx)

/-! ## Theorems -/

/-- The summed mass of the children of a proportional split is the sum of the
split fractions times the parent's mass. -/
theorem splitCell_mass_sum (parent : GridCell) (fracs : List ℚ) (s : ℕ) :
    childMassSum (splitCell parent fracs) s = fracs.sum * parent.mass s := by
  have h := List.sum_map_mul_right fracs id (parent.mass s)
  simpa [childMassSum, splitCell, List.map_map, Function.comp] using h

/-- C7: an emission-units string is accepted if and only if it is one of
`tons/year`, `kg/year`, `ug/s`, `μg/s`; an invalid string makes the `steady`
command abort with a descriptive error before the simulation run is ever
invoked, never substituting a default. -/
theorem emission_units_validation (u : String) :
    (checkEmissionUnits u = Except.ok u ↔ u ∈ acceptableEmissionUnits)
    ∧ (u ∉ acceptableEmissionUnits →
        (∀ (a : Except String Unit) (b : Except String String)
            (c : Except String Unit) (r : String),
            steadyCmdRunE a b c u ≠ Except.ok r)
        ∧ steadyCmdRunE (Except.ok ()) (Except.ok "inmap_output.shp")
            (Except.ok ()) u
            = Except.error ("inmap: invalid emission units: " ++ u)) := by
  constructor
  · constructor
    · intro h
      by_contra hmem
      simp [checkEmissionUnits, hmem] at h
    · intro hmem
      simp [checkEmissionUnits, hmem]
  · intro hmem
    have hbad : checkEmissionUnits u
        = Except.error ("inmap: invalid emission units: " ++ u) := by
      simp [checkEmissionUnits, hmem]
    constructor
    · intro a b c r
      cases a with
      | error e => simp [steadyCmdRunE, Bind.bind, Except.bind]
      | ok av =>
        cases b with
        | error e => simp [steadyCmdRunE, Bind.bind, Except.bind]
        | ok bv =>
          cases c with
          | error e => simp [steadyCmdRunE, Bind.bind, Except.bind]
          | ok cv => simp [steadyCmdRunE, Bind.bind, Except.bind, hbad]
    · simp [steadyCmdRunE, Bind.bind, Except.bind, hbad]

/-- Witness for `emission_units_validation` at the concrete invalid unit
string `grams`. -/
theorem emission_units_validation_witness :
    Inmap.steadyCmdRunE (Except.ok ()) (Except.ok "inmap_output.shp")
      (Except.ok ()) "grams"
      = Except.error ("inmap: invalid emission units: " ++ "grams") :=
  ((emission_units_validation "grams").2 (by decide)).2

/-- C2: a grid-mutation split whose sub-area fractions sum to one conserves
every species' total mass across the children, the conservation check
accepts it, and any redistribution failing the conservation check is
rejected with a fatal error that halts the run. -/
theorem mutation_conserves_mass (parent : GridCell) (fracs : List ℚ)
    (species : List ℕ) (hsum : fracs.sum = 1) :
    (∀ s, childMassSum (splitCell parent fracs) s = parent.mass s)
    ∧ mutateCellChecked parent (splitCell parent fracs) species
        = Except.ok (splitCell parent fracs)
    ∧ ∀ children, conservationOK parent children species = false →
        mutateCellChecked parent children species
          = Except.error "grid mutation: mass conservation violated" := by
  have hmass : ∀ s, childMassSum (splitCell parent fracs) s = parent.mass s := by
    intro s
    rw [splitCell_mass_sum, hsum, one_mul]
  refine ⟨hmass, ?_, ?_⟩
  · have hok : conservationOK parent (splitCell parent fracs) species = true := by
      simp only [conservationOK, List.all_eq_true, beq_iff_eq]
      intro s _
      exact hmass s
    simp [mutateCellChecked, hok]
  · intro children hbad
    simp [mutateCellChecked, hbad]

/-- Witness for `mutation_conserves_mass`: a cell of mass 6 split in halves
yields children whose species-0 masses sum back to 6. -/
theorem mutation_conserves_mass_witness :
    childMassSum (splitCell ⟨fun _ => 6, 2⟩ [1/2, 1/2]) 0 = (6 : ℚ) :=
  (mutation_conserves_mass ⟨fun _ => 6, 2⟩ [1/2, 1/2] [0] (by norm_num)).1 0

/-- A left fold of `min` is bounded by its initial value. -/
theorem foldl_min_le_init (b : ℚ) (bs : List ℚ) : bs.foldl min b ≤ b := by
  induction bs generalizing b with
  | nil => exact le_refl b
  | cons c cs ih =>
    simp only [List.foldl_cons]
    exact le_trans (ih (min b c)) (min_le_left b c)

/-- A left fold of `min` is bounded by every listed value. -/
theorem foldl_min_le_mem {x : ℚ} (b : ℚ) (bs : List ℚ) (hx : x ∈ b :: bs) :
    bs.foldl min b ≤ x := by
  induction bs generalizing b with
  | nil =>
    have hxb : x = b := by simpa using hx
    simpa [hxb] using le_refl x
  | cons c cs ih =>
    simp only [List.foldl_cons]
    rcases List.mem_cons.mp hx with h | h
    · subst h
      exact le_trans (foldl_min_le_init _ _) (min_le_left _ _)
    · rcases List.mem_cons.mp h with h2 | h2
      · subst h2
        exact le_trans (foldl_min_le_init _ _) (min_le_right _ _)
      · exact ih (min b c) (List.mem_cons_of_mem _ h2)

/-- A left fold of `min` is one of the listed values. -/
theorem foldl_min_mem (b : ℚ) (bs : List ℚ) : bs.foldl min b ∈ b :: bs := by
  induction bs generalizing b with
  | nil => simp
  | cons c cs ih =>
    simp only [List.foldl_cons]
    rcases List.mem_cons.mp (ih (min b c)) with h1 | h1
    · rcases min_choice b c with h2 | h2
      · rw [h1, h2]
        exact List.mem_cons_self _ _
      · rw [h1, h2]
        exact List.mem_cons_of_mem _ (List.mem_cons_self _ _)
    · exact List.mem_cons_of_mem _ (List.mem_cons_of_mem _ h1)

/-- Every candidate bound of a grid with positive cell dimensions is
positive. -/
theorem gridBounds_pos (cells : List FlowCell)
    (hdim : ∀ c ∈ cells, ∀ p ∈ axisPairs c, 0 < p.2) :
    ∀ x ∈ gridBounds cells, 0 < x := by
  intro x hx
  simp only [gridBounds, List.mem_flatMap, List.mem_filterMap] at hx
  obtain ⟨c, hc, p, hp, hbound⟩ := hx
  by_cases hp1 : p.1 = 0
  · simp [axisBound, hp1] at hbound
  · simp only [axisBound, hp1, if_false, Option.some_inj] at hbound
    rw [← hbound]
    exact div_pos (hdim c hc p hp) (abs_pos.mpr hp1)

/-- C3: the time step produced by the CFL controller satisfies the stability
bound on every cell and axis: step times absolute velocity divided by the
cell dimension along that axis is at most one.  The controller is invoked at
initialization and by the periodic CFL run stage, so the bound is
re-established whenever it runs. -/
theorem cfl_step_bound (safety dtDefault : ℚ) (cells : List FlowCell)
    (hs0 : 0 < safety) (hs1 : safety ≤ 1)
    (hdim : ∀ c ∈ cells, ∀ p ∈ axisPairs c, 0 < p.2) :
    ∀ c ∈ cells, ∀ p ∈ axisPairs c,
      setTimestepCFL safety dtDefault cells * |p.1| / p.2 ≤ 1 := by
  intro c hc p hp
  by_cases hv : p.1 = 0
  · simp [hv]
  · have hmem : p.2 / |p.1| ∈ gridBounds cells := by
      simp only [gridBounds, List.mem_flatMap, List.mem_filterMap]
      exact ⟨c, hc, p, hp, by simp [axisBound, hv]⟩
    have hd : 0 < p.2 := hdim c hc p hp
    have habs : 0 < |p.1| := abs_pos.mpr hv
    cases hgb : gridBounds cells with
    | nil =>
      rw [hgb] at hmem
      simp at hmem
    | cons b bs =>
      rw [hgb] at hmem
      have hmin : bs.foldl min b ≤ p.2 / |p.1| := foldl_min_le_mem b bs hmem
      have hminpos : 0 < bs.foldl min b :=
        gridBounds_pos cells hdim _ (hgb ▸ foldl_min_mem b bs)
      have hdt : setTimestepCFL safety dtDefault cells = safety * bs.foldl min b := by
        simp [setTimestepCFL, hgb]
      rw [hdt]
      have hle : safety * bs.foldl min b ≤ p.2 / |p.1| :=
        le_trans (mul_le_of_le_one_left (le_of_lt hminpos) hs1) hmin
      rw [div_le_one hd]
      exact (le_div_iff habs).mp hle

/-- Witness for `cfl_step_bound`: a single cell with x-velocity 2 and edge
length 10 gets a step satisfying the bound on the x axis. -/
theorem cfl_step_bound_witness :
    setTimestepCFL (9 / 10) 100 [⟨2, 0, 0, 10, 10, 10⟩]
      * |((2 : ℚ), (10 : ℚ)).1| / ((2 : ℚ), (10 : ℚ)).2 ≤ 1 := by
  have hdim : ∀ c ∈ [(⟨2, 0, 0, 10, 10, 10⟩ : FlowCell)],
      ∀ p ∈ axisPairs c, (0 : ℚ) < p.2 := by
    intro c hc p hp
    have hcc : c = ⟨2, 0, 0, 10, 10, 10⟩ := by simpa using hc
    subst hcc
    simp only [axisPairs, List.mem_cons, List.not_mem_nil, or_false] at hp
    rcases hp with rfl | rfl | rfl <;> norm_num
  exact cfl_step_bound (9 / 10) 100 [⟨2, 0, 0, 10, 10, 10⟩]
    (by norm_num) (by norm_num) hdim
    ⟨2, 0, 0, 10, 10, 10⟩ (by simp) ((2 : ℚ), (10 : ℚ)) (by simp [axisPairs])

/-- C5: a calculations group applies its kernels to each cell exactly once in
the exact listed order, each kernel consuming the state the previous kernel
left; splitting the kernel list anywhere shows the later kernels read the
earlier kernels' output, and each cell of the domain is transformed
independently, exactly once. -/
theorem calculations_order {σ : Type}
    (advect mix meander dryDep wetDep chem : σ → σ)
    (ks1 ks2 : List (σ → σ)) (pre post : List σ) (cell : σ) :
    calculations [advect, mix, meander, dryDep, wetDep, chem] cell
        = chem (wetDep (dryDep (meander (mix (advect cell)))))
    ∧ calculations (ks1 ++ ks2) cell = calculations ks2 (calculations ks1 cell)
    ∧ applyCalculations ks1 (pre ++ cell :: post)
        = applyCalculations ks1 pre
            ++ calculations ks1 cell :: applyCalculations ks1 post := by
  refine ⟨rfl, ?_, ?_⟩
  · simp [calculations, List.foldl_append]
  · simp [applyCalculations]

/-- C6: a periodically wrapped run stage executes only when the simulated
time elapsed since it last ran reaches the interval; otherwise the iteration
leaves the stage's data untouched, and in both cases simulated time advances
by the current time step. -/
theorem run_periodically_gates {α : Type} (interval : ℚ) (stage : α → α)
    (d : PDomain α) :
    (d.time - d.lastRun < interval →
        (periodicIteration interval stage d).data = d.data
        ∧ (periodicIteration interval stage d).lastRun = d.lastRun
        ∧ (periodicIteration interval stage d).time = d.time + d.dt)
    ∧ (interval ≤ d.time - d.lastRun →
        (periodicIteration interval stage d).data = stage d.data
        ∧ (periodicIteration interval stage d).lastRun = d.time
        ∧ (periodicIteration interval stage d).time = d.time + d.dt) := by
  constructor
  · intro h
    have hn : ¬ interval ≤ d.time - d.lastRun := not_le.mpr h
    simp [periodicIteration, runPeriodically, advanceTime, hn]
  · intro h
    simp [periodicIteration, runPeriodically, advanceTime, h]

/-- Witness for `run_periodically_gates`: with interval 5 and elapsed time 0
the stage is skipped while time still advances by the step 1. -/
theorem run_periodically_gates_witness :
    (periodicIteration 5 (fun x : ℚ => x + 1) ⟨0, 0, 1, 0⟩).data = 0
    ∧ (periodicIteration 5 (fun x : ℚ => x + 1) ⟨0, 0, 1, 0⟩).time = 0 + 1 :=
  ⟨((run_periodically_gates 5 (fun x : ℚ => x + 1) ⟨0, 0, 1, 0⟩).1
      (by norm_num)).1,
   ((run_periodically_gates 5 (fun x : ℚ => x + 1) ⟨0, 0, 1, 0⟩).1
      (by norm_num)).2.2⟩

/-- The run loop driven by a stop signal of the form `M ≤ iteration`
executes until exactly `M` iterations have completed. -/
theorem runLoop_exact (stop : ℕ → Bool) (M : ℕ)
    (hstop : ∀ i, stop i = decide (M ≤ i)) :
    ∀ (fuel j : ℕ), j ≤ M → M - j ≤ fuel → runLoop stop fuel j = M := by
  intro fuel
  induction fuel with
  | zero =>
    intro j hj hf
    have hjm : j = M := by omega
    simp [runLoop, hjm]
  | succ n ih =>
    intro j hj hf
    by_cases h : M ≤ j
    · have hjm : j = M := le_antisymm hj h
      subst hjm
      have hs : stop j = true := by
        rw [hstop]
        simp
      simp [runLoop, hs]
    · have hs : stop j = false := by
        rw [hstop]
        simp [h]
      simp only [runLoop, hs, Bool.false_eq_true, if_false]
      exact ih (j + 1) (by omega) (by omega)

/-- C4: with a configured iteration count of at least one and enough fuel,
the run loop executes the run-stage sequence exactly that many times and
stops, whatever the convergence metric reports; with a count below one, the
stop signal is exactly the convergence detector's signal. -/
theorem fixed_iteration_count (numIterations : ℤ) (convergedAt : ℕ → Bool)
    (fuel : ℕ) :
    (1 ≤ numIterations → numIterations.toNat ≤ fuel →
        iterationsExecuted numIterations convergedAt fuel = numIterations.toNat)
    ∧ (numIterations < 1 →
        ∀ i, shouldStop numIterations (convergedAt i) i = convergedAt i) := by
  constructor
  · intro hN hfuel
    apply runLoop_exact _ numIterations.toNat _ fuel 0 (by omega) (by omega)
    intro i
    simp [shouldStop, hN]
  · intro hN i
    have h : ¬ (1 ≤ numIterations) := not_le.mpr hN
    simp [shouldStop, h]

/-- Witness for `fixed_iteration_count`: with 3 configured iterations, the
loop runs exactly 3 times even though the convergence metric reports
convergence immediately. -/
theorem fixed_iteration_count_witness :
    iterationsExecuted 3 (fun _ => true) 5 = 3 :=
  (fixed_iteration_count 3 (fun _ => true) 5).1 (by norm_num) (by norm_num)

/-- C8: assembling the SR output matrix from completed rows keyed by source
index is independent of completion order — a serial completion order and any
parallel completion order of the same row results (distinct source indices)
produce identical matrix contents. -/
theorem sr_order_independence {ρ : Type} (serial parallel : List (ℕ × ρ))
    (hperm : serial.Perm parallel) (hnodup : (serial.map Prod.fst).Nodup) :
    assembleMatrix serial = assembleMatrix parallel := by
  unfold assembleMatrix
  refine hperm.foldl_eq' ?_ _
  intro x hx y hy z
  by_cases hxy : x = y
  · subst hxy
    rfl
  · have hkey : x.1 ≠ y.1 := fun hk =>
      hxy (List.inj_on_of_nodup_map hnodup hx hy hk)
    unfold writeRow
    exact Function.update_comm hkey (some x.2) (some y.2) z

/-- Witness for `sr_order_independence`: two rows completed in either order
assemble to the same matrix. -/
theorem sr_order_independence_witness :
    assembleMatrix [(0, 10), (1, 20)] = assembleMatrix [(1, 20), (0, 10)] :=
  sr_order_independence [(0, 10), (1, 20)] [(1, 20), (0, 10)]
    (List.Perm.swap (1, 20) (0, 10) []) (by decide)

/-- C10: the SR row range is inclusive at `begin` and exclusive at `end`, and
the default `end` value `-1` stands for the index just past the last grid
row, computing the same row set as passing that index explicitly. -/
theorem sr_begin_end_semantics (beginIdx : ℕ) (endIdx : ℤ) (nrows : ℕ) :
    srRowRange beginIdx (-1) nrows = srRowRange beginIdx (nrows : ℤ) nrows
    ∧ (∀ m : ℕ, m ∈ srRowRange beginIdx endIdx nrows
        ↔ beginIdx ≤ m ∧ m < resolveEnd endIdx nrows) := by
  constructor
  · have h1 : resolveEnd (-1) nrows = nrows := by simp [resolveEnd]
    have h2 : resolveEnd (nrows : ℤ) nrows = nrows := by
      have hne : (nrows : ℤ) ≠ -1 := by omega
      simp [resolveEnd, hne]
    rw [srRowRange, srRowRange, h1, h2]
  · intro m
    rw [srRowRange, List.mem_range']
    constructor
    · rintro ⟨i, hi, rfl⟩
      omega
    · rintro ⟨h1, h2⟩
      exact ⟨m - beginIdx, by omega, by omega⟩

/-- Invariant of the coordinator's chunk fold: along any list of distinct
pending chunks whose current-log membership agrees with the original log
directory, the fold attempts exactly the unlogged chunks, never loses a
completion marker, and only records a failure for a chunk whose every
attempt within the retry bound failed. -/
theorem processChunk_foldl_spec (maxTries : ℕ) (outcome : ℕ → ℕ → Bool)
    (logDir : List ℕ) :
    ∀ (chunks : List ℕ) (acc : SRRunResult), chunks.Nodup →
      (∀ c ∈ chunks, c ∈ acc.completedLog ↔ c ∈ logDir) →
      (chunks.foldl (processChunk maxTries outcome) acc).attempted
          = acc.attempted ++ chunks.filter (fun c => decide (c ∉ logDir))
      ∧ (∀ c ∈ acc.completedLog,
          c ∈ (chunks.foldl (processChunk maxTries outcome) acc).completedLog)
      ∧ (∀ c ∈ (chunks.foldl (processChunk maxTries outcome) acc).failed,
          c ∈ acc.failed ∨ ∀ t < maxTries, outcome c t = false) := by
  intro chunks
  induction chunks with
  | nil =>
    intro acc hnd hlog
    refine ⟨by simp, fun c hc => hc, fun c hc => Or.inl hc⟩
  | cons c cs ih =>
    intro acc hnd hlog
    have hndcs : cs.Nodup := (List.nodup_cons.mp hnd).2
    have hcnotcs : c ∉ cs := (List.nodup_cons.mp hnd).1
    simp only [List.foldl_cons]
    by_cases hmem : c ∈ acc.completedLog
    · have hcin : c ∈ logDir := (hlog c (List.mem_cons_self _ _)).mp hmem
      have hstep : processChunk maxTries outcome acc c = acc := by
        simp [processChunk, hmem]
      rw [hstep]
      have hfil : (c :: cs).filter (fun x => decide (x ∉ logDir))
          = cs.filter (fun x => decide (x ∉ logDir)) := by
        simp [List.filter_cons, hcin]
      obtain ⟨h1, h2, h3⟩ :=
        ih acc hndcs (fun x hx => hlog x (List.mem_cons_of_mem _ hx))
      rw [hfil]
      exact ⟨h1, h2, h3⟩
    · have hcout : c ∉ logDir := fun hcd =>
        hmem ((hlog c (List.mem_cons_self _ _)).mpr hcd)
      have hfil : (c :: cs).filter (fun x => decide (x ∉ logDir))
          = c :: cs.filter (fun x => decide (x ∉ logDir)) := by
        simp [List.filter_cons, hcout]
      rw [hfil]
      by_cases hsucc : attemptsSucceed maxTries (outcome c) = true
      · have hstep : processChunk maxTries outcome acc c
            = ⟨acc.attempted ++ [c], acc.completedLog ++ [c], acc.failed⟩ := by
          simp [processChunk, hmem, hsucc]
        rw [hstep]
        have hlog2 : ∀ x ∈ cs,
            x ∈ acc.completedLog ++ [c] ↔ x ∈ logDir := by
          intro x hx
          have hxc : x ≠ c := fun h => hcnotcs (h ▸ hx)
          constructor
          · intro h
            rcases List.mem_append.mp h with h | h
            · exact (hlog x (List.mem_cons_of_mem _ hx)).mp h
            · exact absurd (List.mem_singleton.mp h) hxc
          · intro h
            exact List.mem_append.mpr
              (Or.inl ((hlog x (List.mem_cons_of_mem _ hx)).mpr h))
        obtain ⟨h1, h2, h3⟩ :=
          ih ⟨acc.attempted ++ [c], acc.completedLog ++ [c], acc.failed⟩
            hndcs hlog2
        refine ⟨?_, ?_, ?_⟩
        · rw [h1]
          simp
        · intro x hx
          exact h2 x (List.mem_append.mpr (Or.inl hx))
        · exact h3
      · have hstep : processChunk maxTries outcome acc c
            = ⟨acc.attempted ++ [c], acc.completedLog, acc.failed ++ [c]⟩ := by
          simp [processChunk, hmem, hsucc]
        rw [hstep]
        obtain ⟨h1, h2, h3⟩ :=
          ih ⟨acc.attempted ++ [c], acc.completedLog, acc.failed ++ [c]⟩
            hndcs (fun x hx => hlog x (List.mem_cons_of_mem _ hx))
        refine ⟨?_, ?_, ?_⟩
        · rw [h1]
          simp
        · exact h2
        · intro x hx
          rcases h3 x hx with h | h
          · rcases List.mem_append.mp h with h | h
            · exact Or.inl h
            · have hxc : x = c := List.mem_singleton.mp h
              subst hxc
              refine Or.inr fun t ht => ?_
              by_contra hth
              exact hsucc (by
                simp only [attemptsSucceed, List.any_eq_true]
                exact ⟨t, List.mem_range.mpr ht, by
                  cases houtcome : outcome x t with
                  | false => exact absurd houtcome hth
                  | true => rfl⟩)
          · exact Or.inr h

/-- C9: restarting the SR coordinator against an existing log directory
attempts exactly the chunks without completion markers (the remaining
chunks), every previously completed chunk's marker survives the run, a chunk
ends up failed only when all of its bounded retry attempts failed, and an
attempt run succeeds exactly when some attempt within the bound succeeds. -/
theorem sr_resume_and_retry (maxTries : ℕ) (outcome : ℕ → ℕ → Bool)
    (logDir chunks : List ℕ) (hnd : chunks.Nodup) :
    (resumeSR maxTries outcome logDir chunks).attempted
        = chunks.filter (fun c => decide (c ∉ logDir))
    ∧ (∀ c ∈ logDir,
        c ∈ (resumeSR maxTries outcome logDir chunks).completedLog)
    ∧ (∀ c ∈ (resumeSR maxTries outcome logDir chunks).failed,
        ∀ t < maxTries, outcome c t = false)
    ∧ (∀ f : ℕ → Bool,
        attemptsSucceed maxTries f = true ↔ ∃ t < maxTries, f t = true) := by
  obtain ⟨h1, h2, h3⟩ :=
    processChunk_foldl_spec maxTries outcome logDir chunks ⟨[], logDir, []⟩
      hnd (fun c _ => Iff.rfl)
  refine ⟨by simpa using h1, fun c hc => h2 c hc, ?_, ?_⟩
  · intro c hc
    rcases h3 c hc with h | h
    · simp at h
    · exact h
  · intro f
    simp [attemptsSucceed, List.any_eq_true, List.mem_range]

/-- Witness for `sr_resume_and_retry`: resuming with chunks 1 and 2 already
logged attempts exactly chunks 3 and 5. -/
theorem sr_resume_and_retry_witness :
    (resumeSR 2 (fun c t => decide (c = 5 ∧ t = 1)) [1, 2]
        [1, 2, 3, 5]).attempted = [3, 5] :=
  ((sr_resume_and_retry 2 (fun c t => decide (c = 5 ∧ t = 1)) [1, 2]
      [1, 2, 3, 5] (by decide)).1).trans (by decide)

end Inmap
